import Mathlib

/-!
Verification of the calendar preprocessing pipeline.

This file gives a shallow embedding of the core algorithms of the
`daily-self-regulation-llm` repository:

* `split_row_across_midnight` — the midnight splitter of
  `llm_engineering/application/preprocessing/calendar.py`
  (`CalendarPreprocessor._split_row_across_midnight`);
* `_rename_categories` / `_apply_category_specific_preprocessing` — the
  conditional category rename and the taxonomy classifier of the same file;
* `bulk_upsert` (`llm_engineering/domain/base/nosql.py`) together with
  `prepare_docs_for_upsert` (`pipelines/preprocess.py`) over an abstract
  key-value model of the MongoDB collection;
* `filter_documents_to_process` (`pipelines/preprocess.py`);
* the file-level dedup logic of `CalendarCrawler.extract`
  (`llm_engineering/application/crawlers/calendar.py`);
* `parse_content_field` (`llm_engineering/application/preprocessing/utils.py`)
  over a small model of Python values.

Timestamps are modelled as natural numbers counting minutes from a fixed
epoch; pandas timestamps in this code base are timezone naive, so a calendar
day is a fixed block of `1440` minutes and `pd.Timestamp(t.date())` is
rounding down to a multiple of `1440`.
-/

namespace DailySelfReg

/-! ## String utilities

Python substring membership (`pat in s`), lowercasing (`s.lower()`),
stripping (`s.strip()`), `s.split("_", 1)` and the regex `#\S+` used by
the preprocessor are modelled as executable functions on the character
lists underlying `String`. -/

/-- Boolean test that `pat` is a prefix of `s`, on character lists. -/
def isPrefixOfList : List Char → List Char → Bool
  | [], _ => true
  | _ :: _, [] => false
  | a :: ps, b :: ss => a = b && isPrefixOfList ps ss

/-- Boolean test that `pat` occurs as a contiguous substring of `s`
(the model of Python's `pat in s`). -/
def hasSubList (pat : List Char) : List Char → Bool
  | [] => isPrefixOfList pat []
  | c :: rest => isPrefixOfList pat (c :: rest) || hasSubList pat rest

/-- Python's `pat in s` on `String`s. -/
def strContains (s pat : String) : Bool :=
  hasSubList pat.data s.data

/-- Python's `s.lower()`; ASCII lowering, the identity on Hangul. -/
def lowerStr (s : String) : String :=
  String.mk (s.data.map Char.toLower)

/-- Python's `any(kw in s for kw in kws)`. -/
def containsAny (s : String) (kws : List String) : Bool :=
  kws.any (fun k => strContains s k)

/-- Python's `s.strip()` on a character list. -/
def stripChars (l : List Char) : List Char :=
  ((l.dropWhile Char.isWhitespace).reverse.dropWhile Char.isWhitespace).reverse

/-- Python's `s.strip()` on `String`s. -/
def stripStr (s : String) : String :=
  String.mk (stripChars s.data)

/-- Python's `s.split("_", 1)`: the part before the first underscore and
the remainder, or `none` when no underscore occurs. -/
def splitFirstUnderscore : List Char → Option (List Char × List Char)
  | [] => none
  | c :: rest =>
    if c = '_' then some ([], rest)
    else
      match splitFirstUnderscore rest with
      | some (a, b) => some (c :: a, b)
      | none => none

/-- Scanner behind `findTags`: `acc` holds the reversed characters of the
tag currently being read (starting with `'#'`), or `none` outside a tag.
A one-character candidate (a bare `'#'`) is discarded, since the regex
`#\S+` demands at least one non-whitespace character after the hash. -/
def findTagsAux : List Char → Option (List Char) → List String
  | [], none => []
  | [], some tok => if tok.length ≥ 2 then [String.mk tok.reverse] else []
  | c :: cs, none =>
    if c = '#' then findTagsAux cs (some [c]) else findTagsAux cs none
  | c :: cs, some tok =>
    if c.isWhitespace then
      if tok.length ≥ 2 then String.mk tok.reverse :: findTagsAux cs none
      else findTagsAux cs none
    else findTagsAux cs (some (c :: tok))

/-- The regex findall `r'#\S+'`: every maximal run of non-whitespace
characters introduced by `'#'`, scanned left to right without overlap. -/
def findTags (l : List Char) : List String :=
  findTagsAux l none

/-! ## Time model

Minutes since a fixed epoch; `dateOf` is `t.date()` viewed as a day
number, `nextMidnight` is `pd.Timestamp(t.date()) + pd.Timedelta(days=1)`. -/

/-- Minutes in one (timezone-naive) calendar day. -/
def dayLen : Nat := 1440

/-- Day number of a timestamp: the model of `t.date()`. -/
def dateOf (t : Nat) : Nat := t / dayLen

/-- Midnight following the calendar day of `t`: the model of
`pd.Timestamp(t.date()) + pd.Timedelta(days=1)`. -/
def nextMidnight (t : Nat) : Nat := (t / dayLen) * dayLen + dayLen

/-- Number of local midnights lying strictly inside the half-open
interval `[s, e)`; for `s < e` these are the multiples of `dayLen` in
the open interval `(s, e)`. -/
def midnightsSpanned (s e : Nat) : Nat := dateOf (e - 1) - dateOf s

/-! ## The row model

One row of the calendar DataFrame as it enters
`_split_row_across_midnight`, with the metadata columns initialised by
`_apply_category_specific_preprocessing`. `sub_category` follows the
code's `row.get('sub_category', '') or ''` normalisation to a string. -/

structure Row where
  id : String
  calendar_name : String
  sub_category : String
  event_name : String
  notes : String
  start_dt : Nat
  end_dt : Nat
  duration_minutes : Int
  processed_event_name : String
  processed_notes : String
  extracted_tags : List String
  learning_method : Option String
  learning_target : Option String
  work_tags : Option (List String)
  exercise_type : Option String
  is_risky_recharger : Bool
  has_emotion_event : Bool
  has_relationship_tag : Bool
deriving DecidableEq

/-- Sleep detection `"수면" in str(data.get("event_name", ""))` shared by
the splitter and `_to_cleaned_documents`. -/
def isSleepRow (r : Row) : Bool := strContains r.event_name "수면"

/-! ## The midnight splitter -/

/-- One iteration list of the `while current_dt < end_dt` loop of
`_split_row_across_midnight`, producing the `(start, end)` pairs of the
sub-intervals.  The loop advances by at least one minute per iteration,
so `endT - cur` units of fuel make the structural recursion equivalent
to the unbounded loop. -/
def splitSteps : Nat → Nat → Nat → List (Nat × Nat)
  | 0, _, _ => []
  | fuel + 1, endT, cur =>
    if cur < endT then
      (cur, min endT (nextMidnight cur)) :: splitSteps fuel endT (min endT (nextMidnight cur))
    else []

/-- The `(start, end)` pairs produced by the splitting loop on `[cur, endT)`. -/
def splitLoop (endT cur : Nat) : List (Nat × Nat) :=
  splitSteps (endT - cur) endT cur

/-- The splitter `CalendarPreprocessor._split_row_across_midnight`:
sleep rows and rows starting and ending on the same date pass through
unsplit (with `duration_minutes` recomputed); any other row is split at
every local midnight. -/
def split_row_across_midnight (r : Row) : List Row :=
  if isSleepRow r then
    [{ r with duration_minutes := (r.end_dt : Int) - (r.start_dt : Int) }]
  else if dateOf r.start_dt = dateOf r.end_dt then
    [{ r with duration_minutes := (r.end_dt : Int) - (r.start_dt : Int) }]
  else
    (splitLoop r.end_dt r.start_dt).map fun p =>
      { r with start_dt := p.1, end_dt := p.2,
               duration_minutes := (p.2 : Int) - (p.1 : Int) }

/-- Date-of-record assigned by `_to_cleaned_documents`: the end date for
sleep rows, the start date otherwise (`ref_date`). -/
def refDate (r : Row) : Nat :=
  if isSleepRow r then dateOf r.end_dt else dateOf r.start_dt

/-- Chronological, gap-free, overlap-free decomposition: the pairs tile
the half-open interval `[s, e)` left to right with non-empty pieces. -/
def reconstructs (s e : Nat) : List (Nat × Nat) → Prop
  | [] => s = e
  | (a, b) :: rest => a = s ∧ s < b ∧ reconstructs b e rest

/-! ## Conditional category rename (`_rename_categories`)

The code compares `start_datetime.dt.strftime('%Y-%m-%d') <= cutoff_date`
as strings; for well-formed zero-padded ISO dates string order is date
order, so the cutoff is modelled as a day number compared with
`dateOf start_dt`. -/

/-- One entry of the `category_rename_rules` configuration list. -/
structure RenameRule where
  old : String
  new : String
  before_date : Nat
deriving DecidableEq

/-- One pass of the rule loop body in `_rename_categories`, per row. -/
def applyRule (rule : RenameRule) (r : Row) : Row :=
  if dateOf r.start_dt ≤ rule.before_date ∧ r.calendar_name = rule.old then
    { r with calendar_name := rule.new }
  else r

/-- The rename stage `_rename_categories`, per row: the rules are folded
over the record in list order, each testing the current category. -/
def rename_categories (rules : List RenameRule) (r : Row) : Row :=
  rules.foldl (fun acc rule => applyRule rule acc) r

/-- The `category_rename_rules` configured in `pipelines/preprocess.py`
(`preprocess_data`); the cutoffs `2025-10-24` and `2025-09-27` are day
numbers counted from 1970-01-01. -/
def production_rename_rules : List RenameRule :=
  [ { old := "yoonhs010@gmail.com", new := "구글캘린더", before_date := 20385 },
    { old := "유지 / 정리", new := "이동", before_date := 20358 } ]

/-! ## The taxonomy classifier (`_apply_category_specific_preprocessing`) -/

/-- Keyword set `ANAEROBIC_KEYWORDS` of `CalendarPreprocessor`. -/
def ANAEROBIC_KEYWORDS : List String :=
  ["무산소", "웨이트", "헬스", "근력", "벤치프레스", "스쿼트", "데드리프트",
   "덤벨", "바벨", "풀업", "턱걸이", "푸쉬업", "팔굽혀펴기", "플랭크"]

/-- Keyword set `AEROBIC_KEYWORDS` of `CalendarPreprocessor`. -/
def AEROBIC_KEYWORDS : List String :=
  ["유산소", "러닝", "달리기", "조깅", "걷기", "산책", "자전거", "사이클", "스텝퍼",
   "수영", "에어로빅", "줌바", "댄스", "트레드밀", "런닝머신", "계단", "등산"]

/-- Keyword set `RISKY_RECHARGER_KEYWORDS` of `CalendarPreprocessor`. -/
def RISKY_RECHARGER_KEYWORDS : List String :=
  ["혼술", "유투브", "유튜브", "넷플릭스", "netflix", "영화", "드라마",
   "게임", "핸드폰", "폰", "인스타", "instagram", "페이스북", "facebook"]

/-- Keyword set `DRIVING_KEYWORDS` of `CalendarPreprocessor`. -/
def DRIVING_KEYWORDS : List String := ["운전"]

/-- Keyword set `RELATIONSHIP_MAINTENANCE_KEYWORDS` of `CalendarPreprocessor`. -/
def RELATIONSHIP_MAINTENANCE_KEYWORDS : List String := ["카톡", "연락"]

/-- Keyword set `MEAL_KEYWORDS` of `CalendarPreprocessor`. -/
def MEAL_KEYWORDS : List String :=
  ["식사", "아침식사", "점심식사", "저녁식사", "조식", "중식", "석식"]

/-- Keyword set `MEAL_PREPARATION_KEYWORDS` of `CalendarPreprocessor`. -/
def MEAL_PREPARATION_KEYWORDS : List String := ["식사준비", "식사 준비"]

/-- Metadata-column initialisation at the top of
`_apply_category_specific_preprocessing` (lines 221-230); the unset
sentinel `None` of the tag columns is modelled by `[]`/`none`. -/
def initMeta (r : Row) : Row :=
  { r with processed_event_name := r.event_name, processed_notes := r.notes,
           extracted_tags := [], learning_method := none, learning_target := none,
           work_tags := none, exercise_type := none, is_risky_recharger := false,
           has_emotion_event := false, has_relationship_tag := false }

/-- Relationship reclassification block (lines 240-261): a `"인간관계"`
record gets a guaranteed `#인간관계` sub-label and is reassigned to
`"유지 / 정리"` when its title matches a maintenance keyword, otherwise
(including a missing title) to `"휴식 / 회복"`. -/
def relBranch (r : Row) : Row :=
  if r.calendar_name = "인간관계" then
    let sub := if r.sub_category = "" ∨ strContains r.sub_category "#인간관계" = false
               then "#인간관계" else r.sub_category
    let cat := if r.event_name ≠ "" ∧
                  containsAny (lowerStr r.event_name) RELATIONSHIP_MAINTENANCE_KEYWORDS
               then "유지 / 정리" else "휴식 / 회복"
    { r with sub_category := sub, calendar_name := cat }
  else r

/-- Meal reclassification block (lines 263-272): a `"Daily / Chore"`
record whose title mentions a meal keyword, but is not meal preparation,
moves to `"휴식 / 회복"`. -/
def mealBranch (r : Row) : Row :=
  if r.calendar_name = "Daily / Chore" ∧ r.event_name ≠ "" then
    if containsAny (lowerStr r.event_name) MEAL_KEYWORDS ∧
       ¬ containsAny (lowerStr r.event_name) MEAL_PREPARATION_KEYWORDS
    then { r with calendar_name := "휴식 / 회복" }
    else r
  else r

/-- Per-category handler `_preprocess_learning`: split the title at its
first underscore into method and target, both stripped. -/
def preprocess_learning (r : Row) : Row :=
  match splitFirstUnderscore r.event_name.data with
  | none => r
  | some (a, b) =>
    { r with learning_method := some (String.mk (stripChars a)),
             learning_target := some (String.mk (stripChars b)) }

/-- Per-category handler `_preprocess_work`: collect the `#tags` of the
sub-label. -/
def preprocess_work (r : Row) : Row :=
  if r.sub_category = "" then r
  else
    let tags := findTags r.sub_category.data
    if tags = [] then r else { r with work_tags := some tags }

/-- Per-category handler `_preprocess_daily_chore`: when a driving
keyword occurs in title or notes, canonicalise the title to `"운전"`
and keep the original title inside the notes. -/
def preprocess_daily_chore (r : Row) : Row :=
  if containsAny (lowerStr (r.event_name ++ " " ++ r.notes)) DRIVING_KEYWORDS ∧
     r.event_name ≠ "" then
    { r with processed_event_name := "운전",
             processed_notes :=
               if r.notes ≠ "" then r.event_name ++ " - " ++ r.notes else r.event_name }
  else r

/-- Per-category handler `_preprocess_drain`: tag handling happens in the
common logic, so the record passes through. -/
def preprocess_drain (r : Row) : Row := r

/-- Per-category handler `_preprocess_exercise`: classify as anaerobic,
aerobic, mixed or other from the two curated keyword sets. -/
def preprocess_exercise (r : Row) : Row :=
  let combined := lowerStr (r.event_name ++ " " ++ r.sub_category)
  let hasAn := containsAny combined ANAEROBIC_KEYWORDS
  let hasAe := containsAny combined AEROBIC_KEYWORDS
  { r with exercise_type :=
      if hasAn ∧ ¬ hasAe then some "무산소"
      else if hasAe ∧ ¬ hasAn then some "유산소"
      else if hasAn ∧ hasAe then some "복합"
      else some "기타" }

/-- Per-category handler `_preprocess_rest`: normalise meal titles to
`"식사"` and detect the risky-recharger flag from the `#즉시만족`
sub-tag or the curated keyword list. -/
def preprocess_rest (r : Row) : Row :=
  let r1 := if r.event_name ≠ "" ∧ containsAny (lowerStr r.event_name) MEAL_KEYWORDS
            then { r with processed_event_name := "식사" } else r
  let risky := ((r.sub_category != "") && strContains r.sub_category "#즉시만족")
            || ((r.event_name != "") && containsAny (lowerStr r.event_name) RISKY_RECHARGER_KEYWORDS)
  { r1 with is_risky_recharger := risky }

/-- Per-category handler `_preprocess_maintenance`: tag handling happens
in the common logic, so the record passes through. -/
def preprocess_maintenance (r : Row) : Row := r

/-- The `elif` dispatch on the (possibly rewritten) category
(lines 274-294). -/
def category_dispatch (r : Row) : Row :=
  if r.calendar_name = "학습 / 성장" then preprocess_learning r
  else if r.calendar_name = "일 / 생산" then preprocess_work r
  else if r.calendar_name = "Daily / Chore" then preprocess_daily_chore r
  else if r.calendar_name = "Drain" then preprocess_drain r
  else if r.calendar_name = "운동" then preprocess_exercise r
  else if r.calendar_name = "휴식 / 회복" then preprocess_rest r
  else if r.calendar_name = "유지 / 정리" then preprocess_maintenance r
  else r

/-- Helper `_extract_all_tags`. -/
def extract_all_tags (sub : String) : List String :=
  if sub = "" then [] else findTags sub.data

/-- Unconditional common block (lines 296-303): extract all `#tags` of
the sub-label and derive the two boolean flags. -/
def commonTags (r : Row) : Row :=
  let all := extract_all_tags r.sub_category
  { r with extracted_tags := all,
           has_relationship_tag :=
             if "#인간관계" ∈ all then true else r.has_relationship_tag,
           has_emotion_event :=
             if "#감정이벤트" ∈ all then true else r.has_emotion_event }

/-- The per-row body of `_apply_category_specific_preprocessing`:
metadata initialisation, the two reclassification blocks, the
per-category dispatch, then the common tag extraction. -/
def classify_row (r : Row) : Row :=
  commonTags (category_dispatch (mealBranch (relBranch (initMeta r))))

/-- Stages 5 and 6 of `CalendarPreprocessor.clean`, per record: the
conditional rename followed by the taxonomy classifier. -/
def classifyPipeline (rules : List RenameRule) (r : Row) : Row :=
  classify_row (rename_categories rules r)

/-! ## The durable store

MongoDB collections are modelled as maps from the `_id` key to the
stored document.  `CleanedCalendarDocument` is reduced to its identity
fields plus a representative payload. -/

/-- A cleaned document as stored: `_id`, the stable `original_id`
linking back to the raw entity, and its payload. -/
structure CDoc where
  id : String
  original_id : String
  content : String
  ref_date : String
deriving DecidableEq

/-- A MongoDB collection keyed by `_id`. -/
def Store : Type := String → Option CDoc

/-- The collection with no documents. -/
def emptyStore : Store := fun _ => none

/-- Point update of a collection at key `k`. -/
def storeSet (st : Store) (k : String) (v : CDoc) : Store :=
  fun q => if q = k then some v else st q

/-- Result of `bulk_upsert`: the collection after the write and the
`matched` / `modified` / `upserted` counts of the bulk-write result. -/
structure BulkResult where
  store : Store
  matched : Nat
  modified : Nat
  upserted : Nat

/-- The operation list of `NoSQLBaseDocument.bulk_upsert` with
`match_field="_id"`: each document becomes a
`ReplaceOne({_id: doc._id}, doc, upsert=True)`.  A matching replace
counts `matched`, and `modified` only when the replacement differs from
the stored document; a non-matching replace inserts and counts
`upserted`. -/
def bulkUpsertAux (st : Store) : List CDoc → BulkResult
  | [] => { store := st, matched := 0, modified := 0, upserted := 0 }
  | d :: ds =>
    match st d.id with
    | some old =>
      let r := bulkUpsertAux (storeSet st d.id d) ds
      { r with matched := r.matched + 1,
               modified := r.modified + (if old = d then 0 else 1) }
    | none =>
      let r := bulkUpsertAux (storeSet st d.id d) ds
      { r with upserted := r.upserted + 1 }

/-- `NoSQLBaseDocument.bulk_upsert` (keyed on `_id`). -/
def bulk_upsert (st : Store) (docs : List CDoc) : BulkResult :=
  bulkUpsertAux st docs

/-- The dict comprehension
`{str(doc.original_id): doc.id for doc in existing_docs}` of
`prepare_docs_for_upsert`: a later document with the same
`original_id` overwrites an earlier one, so the tail takes precedence. -/
def buildExistingMap : List CDoc → String → Option String
  | [], _ => none
  | e :: es, k =>
    match buildExistingMap es k with
    | some i => some i
    | none => if k = e.original_id then some e.id else none

/-- Per-document body of the loop in `prepare_docs_for_upsert`: adopt the
existing `_id` when one is recorded for this `original_id`. -/
def prepareOne (existingMap : String → Option String) (d : CDoc) : CDoc :=
  match existingMap d.original_id with
  | some i => { d with id := i }
  | none => d

/-- `prepare_docs_for_upsert` of `pipelines/preprocess.py`. -/
def prepare_docs_for_upsert (existing : List CDoc) (docs : List CDoc) : List CDoc :=
  docs.map (prepareOne (buildExistingMap existing))

/-! ## The incremental selector (`filter_documents_to_process`) -/

/-- A raw document row as seen by the selector: its id and the value of
the configured time column (`none` models a missing/NaN value). -/
structure RawDoc where
  id : String
  time_value : Option Nat
deriving DecidableEq

/-- The per-row predicate `needs_processing` of
`filter_documents_to_process`: select when no cleaned document exists,
or when the source-reported time is strictly newer than `processed_at`;
a missing time value never selects. -/
def needs_processing (processed_map : String → Option Nat) (d : RawDoc) : Bool :=
  match processed_map d.id with
  | none => true
  | some p =>
    match d.time_value with
    | some t => decide (p < t)
    | none => false

/-- `filter_documents_to_process` of `pipelines/preprocess.py`. -/
def filter_documents_to_process (processed_map : String → Option Nat)
    (df : List RawDoc) : List RawDoc :=
  df.filter (needs_processing processed_map)

/-! ## File-level dedup (`CalendarCrawler.extract`)

The `ProcessedFileDocument` collection is modelled as the list of
`(file_path, file_hash)` pairs saved so far.  Each candidate file
carries the outcome `_process_single_file` would have on it, and a log
records every processing attempt with its success flag. -/

/-- One `.xlsx` file of a directory scan: path, content hash, and
whether `_process_single_file` succeeds on it. -/
structure FileEvent where
  path : String
  hash : String
  ok : Bool
deriving DecidableEq

/-- `CalendarCrawler._is_file_processed`: membership of the exact
`(file_path, file_hash)` pair among the saved records. -/
def is_file_processed (recs : List (String × String)) (p h : String) : Bool :=
  decide ((p, h) ∈ recs)

/-- Body of the per-file loop of `CalendarCrawler.extract`: skip a file
whose `(path, hash)` is recorded; otherwise process it, and save a
record only on success.  Returns the new record list and the log of
processing attempts this file produced. -/
def handleFile (recs : List (String × String)) (f : FileEvent) :
    List (String × String) × List (String × String × Bool) :=
  if is_file_processed recs f.path f.hash then (recs, [])
  else if f.ok then (recs ++ [(f.path, f.hash)], [(f.path, f.hash, true)])
  else (recs, [(f.path, f.hash, false)])

/-- `CalendarCrawler.extract` over a directory listing (possibly spanning
several runs, since the record list persists): the final record list and
the concatenated processing log. -/
def crawler_extract (recs : List (String × String)) :
    List FileEvent → List (String × String) × List (String × String × Bool)
  | [] => (recs, [])
  | f :: fs =>
    let s := handleFile recs f
    let rest := crawler_extract s.1 fs
    (rest.1, s.2 ++ rest.2)

/-- Number of successful processing events for the pair `(p, h)` in a log. -/
def countOk (log : List (String × String × Bool)) (p h : String) : Nat :=
  (log.filter (fun e => e.1 == p && e.2.1 == h && e.2.2)).length

/-! ## `parse_content_field` over a model of Python values -/

/-- Python values reaching `parse_content_field`: dicts, strings,
integers, the float NaN, other floats, `None`, booleans and lists. -/
inductive PyVal where
  | pydict : List (String × PyVal) → PyVal
  | pystr : String → PyVal
  | pyint : Int → PyVal
  | pynan : PyVal
  | pyfloat : Int → PyVal
  | pynone : PyVal
  | pybool : Bool → PyVal
  | pylist : List PyVal → PyVal

/-- Whether a Python value is a dict. -/
def isDict : PyVal → Bool
  | .pydict _ => true
  | _ => false

/-- `parse_content_field` of
`llm_engineering/application/preprocessing/utils.py`.  The external
parsers `json.loads` and `ast.literal_eval` are passed as parameters;
`none` models the parser raising, `some v` a successful parse with
result `v` (which need not be a dict). -/
def parse_content_field (jsonLoads litEval : String → Option PyVal) : PyVal → PyVal
  | .pydict d => .pydict d
  | .pynone => .pydict []
  | .pynan => .pydict []
  | .pystr str0 =>
    let s := stripStr str0
    if s = "" then .pydict []
    else
      match jsonLoads s with
      | some r => r
      | none =>
        match litEval s with
        | some r => r
        | none => .pydict []
  | _ => .pydict []

/-- Decimal digits to a number. -/
def decDigitsToNat (l : List Char) : Nat :=
  l.foldl (fun acc c => acc * 10 + (c.toNat - '0'.toNat)) 0

/-- The fragment of `json.loads` on unsigned integer literals (JSON
forbids redundant leading zeros): enough of the real parser to evaluate
`parse_content_field` on numeric strings. -/
def jsonIntFragment (s : String) : Option PyVal :=
  if s.data ≠ [] ∧ (∀ c ∈ s.data, '0' ≤ c ∧ c ≤ '9') ∧
     (s.data.head? = some '0' → s.data.length = 1) then
    some (.pyint (decDigitsToNat s.data))
  else none

/-! ## Concrete witness rows -/

/-- Concrete non-sleep row used to witness C1: a 30-hour interval from
day 1, 20:00 to day 3, 02:00 in the minute model. -/
def rowC1 : Row :=
  { id := "ev1", calendar_name := "일 / 생산", sub_category := "", event_name := "회의",
    notes := "", start_dt := 2640, end_dt := 4440, duration_minutes := 0,
    processed_event_name := "", processed_notes := "", extracted_tags := [],
    learning_method := none, learning_target := none, work_tags := none,
    exercise_type := none, is_risky_recharger := false, has_emotion_event := false,
    has_relationship_tag := false }

/-- Concrete sleep row used to witness C2: sleep from day 1, 23:00 to
day 3, 07:00, spanning two midnights. -/
def rowC2 : Row :=
  { rowC1 with id := "ev2", event_name := "수면", start_dt := 2820, end_dt := 4740 }


/-- Sleep row crossing one midnight whose start date (day 0) lies before
the cutoff while its date-of-record (day 1, the end date) lies after it. -/
def rowC4 : Row :=
  { rowC1 with id := "ev4", calendar_name := "A", event_name := "수면",
               start_dt := 1380, end_dt := 1860 }

/-- Rename rule used against `rowC4`: old label `"A"`, cutoff day 0. -/
def ruleC4 : RenameRule := { old := "A", new := "B", before_date := 0 }

/-- Relationship record with a maintenance title (`"카톡"`) dated before
the `"유지 / 정리"` rename cutoff of the production configuration. -/
def rowC5 : Row :=
  { rowC1 with id := "ev5", calendar_name := "인간관계", event_name := "카톡",
               start_dt := 20300 * 1440, end_dt := 20300 * 1440 + 60 }

/-- Record used to witness the amended idempotence statement. -/
def rowC5w : Row :=
  { rowC1 with id := "ev5w", calendar_name := "운동", event_name := "웨이트",
               start_dt := 20300 * 1440, end_dt := 20300 * 1440 + 60 }

/-- Rename rules used to witness the amended idempotence statement: no
old label equals a new label or a classifier-produced category. -/
def rulesC5w : List RenameRule :=
  [ { old := "개인개발", new := "프로젝트", before_date := 99999 } ]

/-- The relationship record of the spec's worked example. -/
def rowC6 : Row :=
  { rowC1 with id := "ev6", calendar_name := "인간관계",
               event_name := "coffee with friend", sub_category := "" }

/-- Documents sharing an `_id` but differing in payload: the C3
counterexample batch. -/
def docA : CDoc := { id := "k1", original_id := "o1", content := "part 1", ref_date := "d1" }

/-- Second document of the C3 counterexample batch. -/
def docB : CDoc := { docA with content := "part 2" }

/-- Batch with two distinct `_id`s for the C3 witness. -/
def docC : CDoc := { id := "k2", original_id := "o2", content := "part 3", ref_date := "d2" }

/-- Existing stored document for the C9 witness. -/
def existingC9 : List CDoc :=
  [ { id := "id9", original_id := "orig9", content := "stored", ref_date := "d0" } ]

/-- Freshly cleaned batch for the C9 witness: two split parts of one raw
event, sharing `original_id` but carrying fresh ids. -/
def docsC9 : List CDoc :=
  [ { id := "n1", original_id := "orig9", content := "part1", ref_date := "d1" },
    { id := "n2", original_id := "orig9", content := "part2", ref_date := "d2" } ]

/-- Processed map for the C7 witness: original id `"a"` was processed at
time 5. -/
def mapC7 : String → Option Nat := fun k => if k = "a" then some 5 else none

/-- Raw rows for the C7 witness. -/
def dfC7 : List RawDoc := [ { id := "a", time_value := some 9 }, { id := "b", time_value := none } ]

/-- Directory scans for the C8 witness: the same file fails once, then
succeeds, then is skipped. -/
def filesC8 : List FileEvent :=
  [ { path := "f.xlsx", hash := "h1", ok := false },
    { path := "f.xlsx", hash := "h1", ok := true },
    { path := "f.xlsx", hash := "h1", ok := true } ]

/-! ## Claim theorems -/

theorem nextMidnight_gt (t : Nat) : t < nextMidnight t := by
  simp only [nextMidnight, dayLen]
  omega

theorem splitSteps_reconstructs :
    ∀ (fuel endT cur : Nat), endT - cur ≤ fuel → cur ≤ endT →
      reconstructs cur endT (splitSteps fuel endT cur) := by
  intro fuel
  induction fuel with
  | zero =>
    intro endT cur h1 h2
    have he : cur = endT := by omega
    simp [splitSteps, reconstructs, he]
  | succ n ih =>
    intro endT cur h1 h2
    by_cases h : cur < endT
    · have hm := nextMidnight_gt cur
      simp only [splitSteps, if_pos h, reconstructs]
      refine ⟨by trivial, by omega, ?_⟩
      exact ih endT (min endT (nextMidnight cur)) (by omega) (by omega)
    · have he : cur = endT := by omega
      simp [splitSteps, h, he, reconstructs]

theorem splitSteps_length :
    ∀ (fuel endT cur : Nat), endT - cur ≤ fuel → cur < endT →
      (splitSteps fuel endT cur).length = dateOf (endT - 1) - dateOf cur + 1 := by
  intro fuel
  induction fuel with
  | zero => intro endT cur h1 h2; omega
  | succ n ih =>
    intro endT cur h1 h2
    have hm := nextMidnight_gt cur
    simp only [splitSteps, if_pos h2, List.length_cons]
    by_cases hlast : endT ≤ nextMidnight cur
    · have hmin : min endT (nextMidnight cur) = endT := by omega
      rw [hmin]
      have hempty : splitSteps n endT endT = [] := by
        cases n <;> simp [splitSteps]
      rw [hempty]
      have : dateOf (endT - 1) = dateOf cur := by
        simp only [dateOf, nextMidnight, dayLen] at *
        omega
      simp [this]
    · have hmin : min endT (nextMidnight cur) = nextMidnight cur := by omega
      rw [hmin]
      rw [ih endT (nextMidnight cur) (by omega) (by omega)]
      have hd : dateOf (nextMidnight cur) = dateOf cur + 1 := by
        simp only [dateOf, nextMidnight, dayLen]
        omega
      have hge : dateOf cur + 1 ≤ dateOf (endT - 1) := by
        simp only [dateOf, nextMidnight, dayLen] at *
        omega
      omega

theorem splitSteps_within_day :
    ∀ (fuel endT cur : Nat), ∀ p ∈ splitSteps fuel endT cur,
      p.1 < p.2 ∧ p.2 ≤ nextMidnight p.1 := by
  intro fuel
  induction fuel with
  | zero => intro endT cur p hp; simp [splitSteps] at hp
  | succ n ih =>
    intro endT cur p hp
    by_cases h : cur < endT
    · simp only [splitSteps, if_pos h, List.mem_cons] at hp
      rcases hp with hp | hp
      · subst hp
        have hm := nextMidnight_gt cur
        constructor
        · simp only []; omega
        · simp only []; omega
      · exact ih endT (min endT (nextMidnight cur)) p hp
    · simp [splitSteps, h] at hp

/-! ## Claim theorems about the splitter -/

/-- C1. For every non-sleep-like interval `[start, end)` spanning
`k ≥ 1` local midnights, `_split_row_across_midnight` returns exactly
`k + 1` sub-intervals, in chronological order, whose concatenation
exactly reconstructs `[start, end)` with no gaps or overlaps, and each
sub-interval lies within a single calendar day. -/
theorem split_row_midnight_spec (r : Row)
    (hsleep : isSleepRow r = false)
    (hlt : r.start_dt < r.end_dt)
    (hk : 1 ≤ midnightsSpanned r.start_dt r.end_dt) :
    (split_row_across_midnight r).length = midnightsSpanned r.start_dt r.end_dt + 1 ∧
    reconstructs r.start_dt r.end_dt
      ((split_row_across_midnight r).map fun q => (q.start_dt, q.end_dt)) ∧
    ∀ q ∈ split_row_across_midnight r,
      q.start_dt < q.end_dt ∧ q.end_dt ≤ nextMidnight q.start_dt := by
  have hdates : dateOf r.start_dt ≠ dateOf r.end_dt := by
    simp only [midnightsSpanned, dateOf, dayLen] at hk ⊢
    omega
  have hsplit : split_row_across_midnight r =
      (splitLoop r.end_dt r.start_dt).map fun p =>
        { r with start_dt := p.1, end_dt := p.2,
                 duration_minutes := (p.2 : Int) - (p.1 : Int) } := by
    simp [split_row_across_midnight, hsleep, hdates]
  refine ⟨?_, ?_, ?_⟩
  · rw [hsplit, List.length_map]
    exact splitSteps_length (r.end_dt - r.start_dt) r.end_dt r.start_dt le_rfl hlt
  · rw [hsplit, List.map_map]
    have hmaps : ((fun q : Row => (q.start_dt, q.end_dt)) ∘
        fun p : Nat × Nat =>
          ({ r with start_dt := p.1, end_dt := p.2,
                    duration_minutes := (p.2 : Int) - (p.1 : Int) } : Row)) = id := by
      funext p
      rfl
    rw [hmaps, List.map_id]
    exact splitSteps_reconstructs (r.end_dt - r.start_dt) r.end_dt r.start_dt le_rfl
      (Nat.le_of_lt hlt)
  · intro q hq
    rw [hsplit] at hq
    rcases List.mem_map.mp hq with ⟨p, hp, hpq⟩
    have := splitSteps_within_day (r.end_dt - r.start_dt) r.end_dt r.start_dt p hp
    rw [← hpq]
    exact this

/-- Witness for C1 at a concrete two-midnight row. -/
theorem split_row_midnight_spec_witness :
    (split_row_across_midnight rowC1).length = midnightsSpanned rowC1.start_dt rowC1.end_dt + 1 ∧
    reconstructs rowC1.start_dt rowC1.end_dt
      ((split_row_across_midnight rowC1).map fun q => (q.start_dt, q.end_dt)) ∧
    ∀ q ∈ split_row_across_midnight rowC1,
      q.start_dt < q.end_dt ∧ q.end_dt ≤ nextMidnight q.start_dt :=
  split_row_midnight_spec rowC1 (by decide) (by decide) (by decide)

/-- C2. Sleep-like rows are returned unsplit — a single record whose
interval equals the input interval (only `duration_minutes` is
recomputed) — and their date-of-record is the date of the end
timestamp. -/
theorem split_sleep_unsplit (r : Row) (hsleep : isSleepRow r = true) :
    split_row_across_midnight r =
      [{ r with duration_minutes := (r.end_dt : Int) - (r.start_dt : Int) }] ∧
    ∀ q ∈ split_row_across_midnight r,
      q.start_dt = r.start_dt ∧ q.end_dt = r.end_dt ∧ refDate q = dateOf r.end_dt := by
  have hq : split_row_across_midnight r =
      [{ r with duration_minutes := (r.end_dt : Int) - (r.start_dt : Int) }] := by
    simp [split_row_across_midnight, hsleep]
  refine ⟨hq, ?_⟩
  intro q hmem
  rw [hq, List.mem_singleton] at hmem
  subst hmem
  refine ⟨rfl, rfl, ?_⟩
  have hs : isSleepRow { r with duration_minutes := (r.end_dt : Int) - (r.start_dt : Int) } = true := hsleep
  simp [refDate, hs]

/-- Witness for C2 at a concrete midnight-spanning sleep row. -/
theorem split_sleep_unsplit_witness :
    split_row_across_midnight rowC2 =
      [{ rowC2 with duration_minutes := (rowC2.end_dt : Int) - (rowC2.start_dt : Int) }] ∧
    ∀ q ∈ split_row_across_midnight rowC2,
      q.start_dt = rowC2.start_dt ∧ q.end_dt = rowC2.end_dt ∧ refDate q = dateOf rowC2.end_dt :=
  split_sleep_unsplit rowC2 (by decide)

/-! ## Lemmas about the store -/

theorem storeSet_eval (st : Store) (k : String) (v : CDoc) (q : String) :
    storeSet st k v q = if q = k then some v else st q := rfl

theorem bulkUpsertAux_store_untouched :
    ∀ (ds : List CDoc) (st : Store) (k : String), (∀ d ∈ ds, d.id ≠ k) →
      (bulkUpsertAux st ds).store k = st k := by
  intro ds
  induction ds with
  | nil => intro st k h; rfl
  | cons d ds ih =>
    intro st k h
    have hd : d.id ≠ k := h d (List.mem_cons_self d ds)
    have hds : ∀ x ∈ ds, x.id ≠ k := fun x hx => h x (List.mem_cons_of_mem d hx)
    have hset : storeSet st d.id d k = st k := by
      rw [storeSet_eval]
      have : ¬ k = d.id := fun hk => hd hk.symm
      rw [if_neg this]
    cases hst : st d.id with
    | some old => simpa [bulkUpsertAux, hst] using (ih (storeSet st d.id d) k hds).trans hset
    | none => simpa [bulkUpsertAux, hst] using (ih (storeSet st d.id d) k hds).trans hset

theorem bulkUpsertAux_lookup_self :
    ∀ (ds : List CDoc) (st : Store), (ds.map CDoc.id).Nodup →
      ∀ d ∈ ds, (bulkUpsertAux st ds).store d.id = some d := by
  intro ds
  induction ds with
  | nil => intro st _ d hd; cases hd
  | cons d0 ds ih =>
    intro st hnd d hd
    have hnd' : (ds.map CDoc.id).Nodup := (List.nodup_cons.mp hnd).2
    have hne : ∀ x ∈ ds, x.id ≠ d0.id := by
      intro x hx hcontra
      exact (List.nodup_cons.mp hnd).1 (hcontra ▸ List.mem_map_of_mem CDoc.id hx)
    rcases List.mem_cons.mp hd with rfl | hmem
    · have huntouched := bulkUpsertAux_store_untouched ds (storeSet st d.id d) d.id hne
      have hself : storeSet st d.id d d.id = some d := by simp [storeSet_eval]
      cases hst : st d.id with
      | some old => simpa [bulkUpsertAux, hst] using huntouched.trans hself
      | none => simpa [bulkUpsertAux, hst] using huntouched.trans hself
    · cases hst : st d0.id with
      | some old => simpa [bulkUpsertAux, hst] using ih (storeSet st d0.id d0) hnd' d hmem
      | none => simpa [bulkUpsertAux, hst] using ih (storeSet st d0.id d0) hnd' d hmem

theorem bulkUpsertAux_second_run :
    ∀ (ds : List CDoc) (st : Store), (ds.map CDoc.id).Nodup →
      (∀ d ∈ ds, st d.id = some d) →
      (∀ k, (bulkUpsertAux st ds).store k = st k) ∧
      (bulkUpsertAux st ds).modified = 0 ∧ (bulkUpsertAux st ds).upserted = 0 := by
  intro ds
  induction ds with
  | nil => intro st _ _; exact ⟨fun k => rfl, rfl, rfl⟩
  | cons d ds ih =>
    intro st hnd hpres
    have hself : st d.id = some d := hpres d (List.mem_cons_self d ds)
    have hnd' : (ds.map CDoc.id).Nodup := (List.nodup_cons.mp hnd).2
    have hne : ∀ x ∈ ds, x.id ≠ d.id := by
      intro x hx hcontra
      exact (List.nodup_cons.mp hnd).1 (hcontra ▸ List.mem_map_of_mem CDoc.id hx)
    have hset : ∀ k, storeSet st d.id d k = st k := by
      intro k
      rw [storeSet_eval]
      by_cases hk : k = d.id
      · rw [if_pos hk, hk, hself]
      · rw [if_neg hk]
    have hpres' : ∀ x ∈ ds, storeSet st d.id d x.id = some x := by
      intro x hx
      rw [hset x.id]
      exact hpres x (List.mem_cons_of_mem d hx)
    obtain ⟨hstore, hmod, hups⟩ := ih (storeSet st d.id d) hnd' hpres'
    refine ⟨?_, ?_, ?_⟩
    · intro k
      simpa [bulkUpsertAux, hself] using (hstore k).trans (hset k)
    · simp [bulkUpsertAux, hself, hmod]
    · simp [bulkUpsertAux, hself, hups]

/-- C3 (amended). When no two documents of the batch share an `_id`,
running `bulk_upsert` a second time with the same batch leaves the
collection in the same final state, and the second run reports zero
modified and zero upserted documents. -/
theorem bulk_upsert_idempotent (st : Store) (docs : List CDoc)
    (hnd : (docs.map CDoc.id).Nodup) :
    (bulk_upsert (bulk_upsert st docs).store docs).store = (bulk_upsert st docs).store ∧
    (bulk_upsert (bulk_upsert st docs).store docs).modified = 0 ∧
    (bulk_upsert (bulk_upsert st docs).store docs).upserted = 0 := by
  have hpres : ∀ d ∈ docs, (bulk_upsert st docs).store d.id = some d :=
    bulkUpsertAux_lookup_self docs st hnd
  obtain ⟨hstore, hmod, hups⟩ :=
    bulkUpsertAux_second_run docs (bulk_upsert st docs).store hnd hpres
  exact ⟨funext hstore, hmod, hups⟩

/-- Counterexample to C3 as stated: a batch containing two distinct
documents with the same `_id` — exactly what `prepare_docs_for_upsert`
produces when one raw event was split across midnights and a stored
document with that `original_id` exists — makes the second identical run
report two modifications instead of zero. -/
theorem bulk_upsert_second_run_nonzero :
    (bulk_upsert (bulk_upsert emptyStore [docA, docB]).store [docA, docB]).modified = 2 ∧
    ¬ (bulk_upsert (bulk_upsert emptyStore [docA, docB]).store [docA, docB]).modified = 0 := by
  constructor
  · rfl
  · decide

/-- Witness for the amended C3 at a concrete two-document batch with
distinct ids. -/
theorem bulk_upsert_idempotent_witness :
    (bulk_upsert (bulk_upsert emptyStore [docA, docC]).store [docA, docC]).store =
      (bulk_upsert emptyStore [docA, docC]).store ∧
    (bulk_upsert (bulk_upsert emptyStore [docA, docC]).store [docA, docC]).modified = 0 ∧
    (bulk_upsert (bulk_upsert emptyStore [docA, docC]).store [docA, docC]).upserted = 0 :=
  bulk_upsert_idempotent emptyStore [docA, docC] (by decide)

/-- C9. When the stored collection already contains a document for
`original_id = o` (so `buildExistingMap` resolves `o` to some `_id`
`i`), `prepare_docs_for_upsert` gives every batch document with that
`original_id` the same existing id `i`; consequently the bulk upsert
keyed on `_id` writes all of them onto the single stored identity `i`,
and it touches no key that is not an id of the prepared batch. -/
theorem prepare_docs_single_identity (existing docs : List CDoc) (o i : String)
    (hmap : buildExistingMap existing o = some i) :
    (∃ e ∈ existing, e.original_id = o ∧ e.id = i) ∧
    (∀ d ∈ docs, d.original_id = o → (prepareOne (buildExistingMap existing) d).id = i) ∧
    (∀ d ∈ prepare_docs_for_upsert existing docs, d.original_id = o → d.id = i) ∧
    (∀ (st : Store) (k : String),
      (bulk_upsert st (prepare_docs_for_upsert existing docs)).store k ≠ st k →
      ∃ d ∈ prepare_docs_for_upsert existing docs, d.id = k) := by
  refine ⟨?_, ?_, ?_, ?_⟩
  · clear docs
    induction existing with
    | nil => cases hmap
    | cons e es ih =>
      simp only [buildExistingMap] at hmap
      cases hes : buildExistingMap es o with
      | some j =>
        rw [hes] at hmap
        obtain ⟨x, hx, hxo, hxi⟩ := ih (hes.trans (by injection hmap with h; rw [h]))
        exact ⟨x, List.mem_cons_of_mem e hx, hxo, hxi⟩
      | none =>
        rw [hes] at hmap
        by_cases ho : o = e.original_id
        · rw [if_pos ho] at hmap
          injection hmap with h
          exact ⟨e, List.mem_cons_self e es, ho.symm, h⟩
        · rw [if_neg ho] at hmap
          cases hmap
  · intro d _ hdo
    simp [prepareOne, hdo, hmap]
  · intro d hd hdo
    obtain ⟨x, hx, hxd⟩ := List.mem_map.mp hd
    have hxo : x.original_id = o := by
      cases hxm : buildExistingMap existing x.original_id with
      | some j => rw [← hxd] at hdo; simpa [prepareOne, hxm] using hdo
      | none => rw [← hxd] at hdo; simpa [prepareOne, hxm] using hdo
    rw [← hxd]
    simp [prepareOne, hxo, hmap]
  · intro st k hne
    by_contra hnone
    push_neg at hnone
    exact hne (bulkUpsertAux_store_untouched _ st k hnone)

/-- Witness for C9: two split parts of one raw event both adopt the
stored id `"id9"`. -/
theorem prepare_docs_single_identity_witness :
    (∃ e ∈ existingC9, e.original_id = "orig9" ∧ e.id = "id9") ∧
    (∀ d ∈ docsC9, d.original_id = "orig9" →
      (prepareOne (buildExistingMap existingC9) d).id = "id9") ∧
    (∀ d ∈ prepare_docs_for_upsert existingC9 docsC9, d.original_id = "orig9" → d.id = "id9") ∧
    (∀ (st : Store) (k : String),
      (bulk_upsert st (prepare_docs_for_upsert existingC9 docsC9)).store k ≠ st k →
      ∃ d ∈ prepare_docs_for_upsert existingC9 docsC9, d.id = k) :=
  prepare_docs_single_identity existingC9 docsC9 "orig9" "id9" (by decide)

/-! ## The incremental selector -/

theorem needs_processing_spec (m : String → Option Nat) (d : RawDoc) :
    needs_processing m d = true ↔
      (m d.id = none ∨ ∃ t p, d.time_value = some t ∧ m d.id = some p ∧ p < t) := by
  cases hm : m d.id with
  | none => simp [needs_processing, hm]
  | some p =>
    cases ht : d.time_value with
    | none => simp [needs_processing, hm, ht]
    | some t =>
      simp only [needs_processing, hm, ht, decide_eq_true_eq]
      constructor
      · intro hlt
        exact Or.inr ⟨t, p, rfl, rfl, hlt⟩
      · rintro (hnone | ⟨t1, p1, ht1, hp1, hlt1⟩)
        · cases hnone
        · injection ht1 with h1
          injection hp1 with h2
          rw [← h1, ← h2] at hlt1
          exact hlt1

/-- C7. A raw record is selected by `filter_documents_to_process` iff it
is in the input batch and either no cleaned document exists for its id,
or its source-reported time is strictly newer than the recorded
`processed_at`; a record with a missing time value is never selected. -/
theorem filter_documents_spec (m : String → Option Nat) (df : List RawDoc) (d : RawDoc) :
    d ∈ filter_documents_to_process m df ↔
      d ∈ df ∧ (m d.id = none ∨ ∃ t p, d.time_value = some t ∧ m d.id = some p ∧ p < t) := by
  unfold filter_documents_to_process
  rw [List.mem_filter, needs_processing_spec]

/-- Witness for C7: the modified record is selected, through the
selection criterion. -/
theorem filter_documents_spec_witness :
    ({ id := "a", time_value := some 9 } : RawDoc) ∈ filter_documents_to_process mapC7 dfC7 :=
  (filter_documents_spec mapC7 dfC7 _).mpr
    ⟨by decide, Or.inr ⟨9, 5, rfl, rfl, by omega⟩⟩

/-! ## File-level dedup -/

theorem countOk_append (xs ys : List (String × String × Bool)) (p h : String) :
    countOk (xs ++ ys) p h = countOk xs p h + countOk ys p h := by
  simp [countOk, List.filter_append]

theorem crawler_extract_at_most_once :
    ∀ (files : List FileEvent) (recs : List (String × String)) (p h : String),
      ((p, h) ∈ recs → countOk (crawler_extract recs files).2 p h = 0) ∧
      countOk (crawler_extract recs files).2 p h ≤ 1 := by
  intro files
  induction files with
  | nil =>
    intro recs p h
    exact ⟨fun _ => rfl, by simp [crawler_extract, countOk]⟩
  | cons f fs ih =>
    intro recs p h
    have hsplit : countOk (crawler_extract recs (f :: fs)).2 p h =
        countOk (handleFile recs f).2 p h +
        countOk (crawler_extract (handleFile recs f).1 fs).2 p h := by
      simp only [crawler_extract]
      rw [countOk_append]
    by_cases hmem : (f.path, f.hash) ∈ recs
    · have hskip : handleFile recs f = (recs, []) := by
        simp [handleFile, is_file_processed, hmem]
      rw [hsplit, hskip]
      simpa [countOk] using ih recs p h
    · by_cases hok : f.ok = true
      · have hproc : handleFile recs f =
            (recs ++ [(f.path, f.hash)], [(f.path, f.hash, true)]) := by
          simp [handleFile, is_file_processed, hmem, hok]
        by_cases hsame : f.path = p ∧ f.hash = h
        · have hcount1 : countOk [(f.path, f.hash, true)] p h = 1 := by
            simp [countOk, List.filter, hsame.1, hsame.2]
          have hinrecs : (p, h) ∈ recs ++ [(f.path, f.hash)] := by
            rw [hsame.1, hsame.2] at *
            exact List.mem_append_right recs (List.mem_singleton.mpr rfl)
          have hzero := (ih (recs ++ [(f.path, f.hash)]) p h).1 hinrecs
          constructor
          · intro habs
            rw [hsame.1, hsame.2] at hmem
            exact absurd habs hmem
          · rw [hsplit, hproc, hcount1, hzero]
        · have hb : (f.path == p && f.hash == h) = false := by
            rcases not_and_or.mp hsame with hne | hne <;> simp [hne]
          have hcount0 : countOk [(f.path, f.hash, true)] p h = 0 := by
            simp [countOk, List.filter, hb]
          constructor
          · intro hin
            have hin' : (p, h) ∈ recs ++ [(f.path, f.hash)] := List.mem_append_left _ hin
            rw [hsplit, hproc, hcount0]
            simpa using (ih (recs ++ [(f.path, f.hash)]) p h).1 hin'
          · rw [hsplit, hproc, hcount0]
            simpa using (ih (recs ++ [(f.path, f.hash)]) p h).2
      · have hfail : handleFile recs f = (recs, [(f.path, f.hash, false)]) := by
          simp [handleFile, is_file_processed, hmem, hok]
        have hcount0 : countOk [(f.path, f.hash, false)] p h = 0 := by
          simp [countOk, List.filter]
        rw [hsplit, hfail, hcount0]
        simpa using ih recs p h

/-- C8. In `CalendarCrawler.extract`, a file whose exact `(path, hash)`
pair is recorded is skipped with no processing attempt; an unrecorded
file that fails is processed but leaves no record, so it stays
selectable for the next run; an unrecorded file that succeeds is
processed and recorded; and across any sequence of scans starting from
a record set, a given `(path, hash)` pair is successfully processed at
most once — never, if it is already recorded. -/
theorem crawler_dedup_spec (recs : List (String × String)) (files : List FileEvent)
    (p h : String) :
    (∀ f : FileEvent, (f.path, f.hash) ∈ recs → handleFile recs f = (recs, [])) ∧
    (∀ f : FileEvent, (f.path, f.hash) ∉ recs → f.ok = false →
      handleFile recs f = (recs, [(f.path, f.hash, false)])) ∧
    (∀ f : FileEvent, (f.path, f.hash) ∉ recs → f.ok = true →
      handleFile recs f = (recs ++ [(f.path, f.hash)], [(f.path, f.hash, true)])) ∧
    ((p, h) ∈ recs → countOk (crawler_extract recs files).2 p h = 0) ∧
    countOk (crawler_extract recs files).2 p h ≤ 1 := by
  refine ⟨?_, ?_, ?_, (crawler_extract_at_most_once files recs p h).1,
    (crawler_extract_at_most_once files recs p h).2⟩
  · intro f hf
    simp [handleFile, is_file_processed, hf]
  · intro f hf hok
    simp [handleFile, is_file_processed, hf, hok]
  · intro f hf hok
    simp [handleFile, is_file_processed, hf, hok]

/-- Witness for C8 on a concrete run where the file fails once, then
succeeds, then is skipped: at most one successful processing. -/
theorem crawler_dedup_spec_witness :
    (( "f.xlsx", "h1") ∈ ([] : List (String × String)) →
      countOk (crawler_extract [] filesC8).2 "f.xlsx" "h1" = 0) ∧
    countOk (crawler_extract [] filesC8).2 "f.xlsx" "h1" ≤ 1 :=
  ⟨(crawler_dedup_spec [] filesC8 "f.xlsx" "h1").2.2.2.1,
   (crawler_dedup_spec [] filesC8 "f.xlsx" "h1").2.2.2.2⟩

/-! ## `parse_content_field` -/

/-- C10 evaluation at the failing input: the string `"3"` parses under
`json.loads` to the integer `3`, which `parse_content_field` returns
unchanged, so the function does not always return a dict, contradicting
its declared `-> dict` contract (and every caller, which immediately
invokes `.get` on the result). -/
theorem parse_content_field_nondict :
    parse_content_field jsonIntFragment (fun _ => none) (PyVal.pystr "3") = PyVal.pyint 3 ∧
    isDict (parse_content_field jsonIntFragment (fun _ => none) (PyVal.pystr "3")) = false :=
  ⟨rfl, rfl⟩

/-! ## The conditional rename -/

/-- C4 (amended). A single rename rule rewrites the category to
`new_label` exactly when the current category equals `old_label` and the
record's start date — not its date-of-record, which differs on
midnight-crossing sleep records — is at most the cutoff; it touches no
other field; and the rule list is evaluated sequentially in order, so a
later suffix of rules acts on the output of the earlier prefix and can
override its effect. -/
theorem rename_rule_semantics :
    (∀ (rule : RenameRule) (r : Row), (applyRule rule r).calendar_name =
      (if r.calendar_name = rule.old ∧ dateOf r.start_dt ≤ rule.before_date
       then rule.new else r.calendar_name)) ∧
    (∀ (rule : RenameRule) (r : Row),
      (applyRule rule r).id = r.id ∧ (applyRule rule r).sub_category = r.sub_category ∧
      (applyRule rule r).event_name = r.event_name ∧ (applyRule rule r).notes = r.notes ∧
      (applyRule rule r).start_dt = r.start_dt ∧ (applyRule rule r).end_dt = r.end_dt) ∧
    (∀ (rules1 rules2 : List RenameRule) (r : Row),
      rename_categories (rules1 ++ rules2) r =
        rename_categories rules2 (rename_categories rules1 r)) := by
  refine ⟨?_, ?_, ?_⟩
  · intro rule r
    unfold applyRule
    by_cases h1 : r.calendar_name = rule.old <;>
      by_cases h2 : dateOf r.start_dt ≤ rule.before_date <;>
      simp [h1, h2]
  · intro rule r
    unfold applyRule
    split <;> exact ⟨rfl, rfl, rfl, rfl, rfl, rfl⟩
  · intro rules1 rules2 r
    simp [rename_categories, List.foldl_append]

/-- Counterexample to C4 as stated: the sleep record `rowC4` crosses
midnight, so its date-of-record (day 1) exceeds the cutoff (day 0), yet
the rule fires because the code keys on the start date (day 0). -/
theorem rename_ignores_refdate :
    (rename_categories [ruleC4] rowC4).calendar_name = "B" ∧
    rowC4.calendar_name = "A" ∧ ruleC4.old = "A" ∧
    ¬ (refDate rowC4 ≤ ruleC4.before_date) := by
  decide

/-! ## Shape lemmas for the classifier stages -/

theorem relBranch_shape (x : Row) :
    ∃ c s, relBranch x = { x with calendar_name := c, sub_category := s } := by
  unfold relBranch
  split
  · exact ⟨_, _, rfl⟩
  · exact ⟨x.calendar_name, x.sub_category, rfl⟩

theorem mealBranch_shape (x : Row) :
    ∃ c, mealBranch x = { x with calendar_name := c } := by
  unfold mealBranch
  split
  · split
    · exact ⟨_, rfl⟩
    · exact ⟨x.calendar_name, rfl⟩
  · exact ⟨x.calendar_name, rfl⟩

theorem preprocess_learning_shape (x : Row) :
    ∃ lm lt, preprocess_learning x =
      { x with learning_method := lm, learning_target := lt } := by
  unfold preprocess_learning
  split
  · exact ⟨x.learning_method, x.learning_target, rfl⟩
  · exact ⟨_, _, rfl⟩

theorem preprocess_work_shape (x : Row) :
    ∃ wt, preprocess_work x = { x with work_tags := wt } := by
  unfold preprocess_work
  split
  · exact ⟨x.work_tags, rfl⟩
  · dsimp only
    split
    · exact ⟨x.work_tags, rfl⟩
    · exact ⟨_, rfl⟩

theorem preprocess_daily_chore_shape (x : Row) :
    ∃ pe pn, preprocess_daily_chore x =
      { x with processed_event_name := pe, processed_notes := pn } := by
  unfold preprocess_daily_chore
  split
  · exact ⟨_, _, rfl⟩
  · exact ⟨x.processed_event_name, x.processed_notes, rfl⟩

theorem preprocess_exercise_shape (x : Row) :
    ∃ et, preprocess_exercise x = { x with exercise_type := et } := by
  unfold preprocess_exercise
  exact ⟨_, rfl⟩

theorem preprocess_rest_shape (x : Row) :
    ∃ pe rk, preprocess_rest x =
      { x with processed_event_name := pe, is_risky_recharger := rk } := by
  unfold preprocess_rest
  dsimp only
  split
  · exact ⟨_, _, rfl⟩
  · exact ⟨x.processed_event_name, _, rfl⟩

theorem category_dispatch_shape (x : Row) :
    ∃ pe pn lm lt wt et rk,
      category_dispatch x =
        { x with
          processed_event_name := pe, processed_notes := pn,
          learning_method := lm, learning_target := lt, work_tags := wt,
          exercise_type := et, is_risky_recharger := rk } := by
  unfold category_dispatch
  split
  · obtain ⟨lm, lt, h⟩ := preprocess_learning_shape x
    exact ⟨_, _, lm, lt, _, _, _, by rw [h]⟩
  · split
    · obtain ⟨wt, h⟩ := preprocess_work_shape x
      exact ⟨_, _, _, _, wt, _, _, by rw [h]⟩
    · split
      · obtain ⟨pe, pn, h⟩ := preprocess_daily_chore_shape x
        exact ⟨pe, pn, _, _, _, _, _, by rw [h]⟩
      · split
        · exact ⟨_, _, _, _, _, _, _, rfl⟩
        · split
          · obtain ⟨et, h⟩ := preprocess_exercise_shape x
            exact ⟨_, _, _, _, _, et, _, by rw [h]⟩
          · split
            · obtain ⟨pe, rk, h⟩ := preprocess_rest_shape x
              exact ⟨pe, _, _, _, _, _, rk, by rw [h]⟩
            · split
              · exact ⟨_, _, _, _, _, _, _, rfl⟩
              · exact ⟨_, _, _, _, _, _, _, rfl⟩

theorem commonTags_shape (x : Row) :
    ∃ tg hr he2, commonTags x =
      { x with
        extracted_tags := tg,
        has_relationship_tag := hr, has_emotion_event := he2 } :=
  ⟨_, _, _, rfl⟩

theorem applyRule_shape (ru : RenameRule) (x : Row) :
    ∃ c, applyRule ru x = { x with calendar_name := c } := by
  unfold applyRule
  split
  · exact ⟨_, rfl⟩
  · exact ⟨x.calendar_name, rfl⟩

/-! ## Behaviour of the reclassification blocks -/

theorem relBranch_noop (x : Row) (h : x.calendar_name ≠ "인간관계") : relBranch x = x := by
  unfold relBranch
  rw [if_neg h]

theorem mealBranch_noop (x : Row) (h : x.calendar_name ≠ "Daily / Chore") :
    mealBranch x = x := by
  unfold mealBranch
  rw [if_neg (fun hc => h hc.1)]

theorem relBranch_fired_cat (x : Row) (h : x.calendar_name = "인간관계") :
    (relBranch x).calendar_name = "유지 / 정리" ∨
    (relBranch x).calendar_name = "휴식 / 회복" := by
  unfold relBranch
  rw [if_pos h]
  dsimp only
  split
  · exact Or.inl rfl
  · exact Or.inr rfl

theorem mealBranch_cases (x : Row) :
    mealBranch x = x ∨ (mealBranch x).calendar_name = "휴식 / 회복" := by
  unfold mealBranch
  split
  · split
    · exact Or.inr rfl
    · exact Or.inl rfl
  · exact Or.inl rfl

theorem step1_idem (x : Row) :
    mealBranch (relBranch (mealBranch (relBranch x))) = mealBranch (relBranch x) := by
  rcases mealBranch_cases (relBranch x) with hI | hII
  · by_cases h1 : x.calendar_name = "인간관계"
    · have hne : (relBranch x).calendar_name ≠ "인간관계" := by
        rcases relBranch_fired_cat x h1 with hc | hc <;> rw [hc] <;> decide
      rw [hI, relBranch_noop (relBranch x) hne]
      exact hI
    · have hx : relBranch x = x := relBranch_noop x h1
      rw [hx] at hI ⊢
      rw [hI, hx]
      exact hI
  · have hne1 : (mealBranch (relBranch x)).calendar_name ≠ "인간관계" := by
      rw [hII]; decide
    have hne2 : (mealBranch (relBranch x)).calendar_name ≠ "Daily / Chore" := by
      rw [hII]; decide
    rw [relBranch_noop _ hne1, mealBranch_noop _ hne2]

/-! ## Idempotence of the classifier -/

theorem initMeta_absorb (x : Row) :
    initMeta (commonTags (category_dispatch x)) = initMeta x := by
  obtain ⟨pe, pn, lm, lt, wt, et, rk, hd⟩ := category_dispatch_shape x
  obtain ⟨tg, hr, he2, hc⟩ := commonTags_shape (category_dispatch x)
  rw [hc, hd]
  rfl

theorem initMeta_step1_fixed (r : Row) :
    initMeta (mealBranch (relBranch (initMeta r))) = mealBranch (relBranch (initMeta r)) := by
  obtain ⟨c2, h2⟩ := mealBranch_shape (relBranch (initMeta r))
  obtain ⟨c, s, h1⟩ := relBranch_shape (initMeta r)
  rw [h2, h1]
  rfl

theorem classify_row_idem (r : Row) : classify_row (classify_row r) = classify_row r := by
  have h1 : initMeta (classify_row r) = mealBranch (relBranch (initMeta r)) := by
    unfold classify_row
    rw [initMeta_absorb]
    exact initMeta_step1_fixed r
  calc classify_row (classify_row r)
      = commonTags (category_dispatch (mealBranch (relBranch
          (initMeta (classify_row r))))) := rfl
    _ = commonTags (category_dispatch (mealBranch (relBranch
          (mealBranch (relBranch (initMeta r)))))) := by rw [h1]
    _ = commonTags (category_dispatch (mealBranch (relBranch (initMeta r)))) := by
          rw [step1_idem]
    _ = classify_row r := rfl

/-! ## Interaction of the rename stage with the classifier -/

theorem rename_noop (rules : List RenameRule) (y : Row)
    (h : ∀ ru ∈ rules, ¬ (dateOf y.start_dt ≤ ru.before_date ∧ y.calendar_name = ru.old)) :
    rename_categories rules y = y := by
  induction rules with
  | nil => rfl
  | cons ru rs ih =>
    have happ : applyRule ru y = y := by
      unfold applyRule
      rw [if_neg (h ru (List.mem_cons_self ru rs))]
    show rename_categories rs (applyRule ru y) = y
    rw [happ]
    exact ih (fun x hx => h x (List.mem_cons_of_mem _ hx))

theorem rename_cat_cases (rules : List RenameRule) :
    ∀ x : Row, (rename_categories rules x).calendar_name = x.calendar_name ∨
      ∃ ru ∈ rules, (rename_categories rules x).calendar_name = ru.new := by
  induction rules with
  | nil => intro x; exact Or.inl rfl
  | cons ru rs ih =>
    intro x
    show (rename_categories rs (applyRule ru x)).calendar_name = x.calendar_name ∨
      ∃ ru2 ∈ ru :: rs, (rename_categories rs (applyRule ru x)).calendar_name = ru2.new
    by_cases hc : dateOf x.start_dt ≤ ru.before_date ∧ x.calendar_name = ru.old
    · have happ : (applyRule ru x).calendar_name = ru.new := by
        unfold applyRule
        rw [if_pos hc]
      rcases ih (applyRule ru x) with h | ⟨ri, hri, h⟩
      · exact Or.inr ⟨ru, List.mem_cons_self ru rs, h.trans happ⟩
      · exact Or.inr ⟨ri, List.mem_cons_of_mem _ hri, h⟩
    · have happ : applyRule ru x = x := by
        unfold applyRule
        rw [if_neg hc]
      rw [happ]
      rcases ih x with h | ⟨ri, hri, h⟩
      · exact Or.inl h
      · exact Or.inr ⟨ri, List.mem_cons_of_mem _ hri, h⟩

theorem rename_start_dt (rules : List RenameRule) :
    ∀ x : Row, (rename_categories rules x).start_dt = x.start_dt := by
  induction rules with
  | nil => intro x; rfl
  | cons ru rs ih =>
    intro x
    show (rename_categories rs (applyRule ru x)).start_dt = x.start_dt
    rw [ih (applyRule ru x)]
    obtain ⟨c, hc⟩ := applyRule_shape ru x
    rw [hc]

theorem rename_output_unmatched (rules : List RenameRule)
    (Hb : ∀ ri ∈ rules, ∀ rj ∈ rules, rj.old ≠ ri.new) :
    ∀ (x : Row), ∀ ru ∈ rules,
      ¬ (dateOf (rename_categories rules x).start_dt ≤ ru.before_date ∧
         (rename_categories rules x).calendar_name = ru.old) := by
  induction rules with
  | nil => intro x ru h; cases h
  | cons r0 rs ih =>
    intro x ru hru
    have Hb2 : ∀ ri ∈ rs, ∀ rj ∈ rs, rj.old ≠ ri.new := fun ri hi rj hj =>
      Hb ri (List.mem_cons_of_mem _ hi) rj (List.mem_cons_of_mem _ hj)
    rcases List.mem_cons.mp hru with rfl | hmem
    · rintro ⟨hdate, hcat⟩
      have hcat2 : (rename_categories rs (applyRule ru x)).calendar_name = ru.old := hcat
      rcases rename_cat_cases rs (applyRule ru x) with hc | ⟨ri, hri, hc⟩
      · by_cases hfire : dateOf x.start_dt ≤ ru.before_date ∧ x.calendar_name = ru.old
        · have hnew : (applyRule ru x).calendar_name = ru.new := by
            unfold applyRule
            rw [if_pos hfire]
          rw [hc, hnew] at hcat2
          exact Hb ru (List.mem_cons_self ru rs) ru (List.mem_cons_self ru rs) hcat2.symm
        · apply hfire
          have hnoop : applyRule ru x = x := by
            unfold applyRule
            rw [if_neg hfire]
          rw [hnoop] at hc hcat2
          constructor
          · have hs : (rename_categories (ru :: rs) x).start_dt = x.start_dt :=
              rename_start_dt _ x
            rw [hs] at hdate
            exact hdate
          · exact hc.symm.trans hcat2
      · rw [hc] at hcat2
        exact Hb ri (List.mem_cons_of_mem _ hri) ru (List.mem_cons_self ru rs) hcat2.symm
    · exact ih Hb2 (applyRule r0 x) ru hmem

theorem classify_row_start_dt (x : Row) : (classify_row x).start_dt = x.start_dt := by
  unfold classify_row
  obtain ⟨tg, hr, he2, hc⟩ :=
    commonTags_shape (category_dispatch (mealBranch (relBranch (initMeta x))))
  obtain ⟨pe, pn, lm, lt, wt, et, rk, hd⟩ :=
    category_dispatch_shape (mealBranch (relBranch (initMeta x)))
  obtain ⟨c2, h2⟩ := mealBranch_shape (relBranch (initMeta x))
  obtain ⟨c, s, h1⟩ := relBranch_shape (initMeta x)
  rw [hc, hd, h2, h1]
  rfl

theorem classify_row_cat (x : Row) :
    (classify_row x).calendar_name = (mealBranch (relBranch (initMeta x))).calendar_name := by
  unfold classify_row
  obtain ⟨tg, hr, he2, hc⟩ :=
    commonTags_shape (category_dispatch (mealBranch (relBranch (initMeta x))))
  obtain ⟨pe, pn, lm, lt, wt, et, rk, hd⟩ :=
    category_dispatch_shape (mealBranch (relBranch (initMeta x)))
  rw [hc, hd]

theorem classify_row_cat_cases (x : Row) :
    (classify_row x).calendar_name = x.calendar_name ∨
    (classify_row x).calendar_name = "유지 / 정리" ∨
    (classify_row x).calendar_name = "휴식 / 회복" := by
  rcases mealBranch_cases (relBranch (initMeta x)) with hm | hm
  · rw [classify_row_cat, hm]
    by_cases h1 : (initMeta x).calendar_name = "인간관계"
    · rcases relBranch_fired_cat _ h1 with h | h
      · exact Or.inr (Or.inl h)
      · exact Or.inr (Or.inr h)
    · rw [relBranch_noop _ h1]
      exact Or.inl rfl
  · exact Or.inr (Or.inr ((classify_row_cat x).trans hm))

/-- C5 (amended). The taxonomy classifier proper — reclassification plus
per-category feature extraction — is idempotent on every record; and the
full pipeline including the conditional rename is idempotent provided no
rename rule's `old_label` equals another rule's `new_label` or one of
the classifier-assigned categories (`"유지 / 정리"`, `"휴식 / 회복"`). -/
theorem classifyPipeline_idem (rules : List RenameRule)
    (Ha : ∀ ru ∈ rules, ru.old ≠ "유지 / 정리" ∧ ru.old ≠ "휴식 / 회복")
    (Hb : ∀ ri ∈ rules, ∀ rj ∈ rules, rj.old ≠ ri.new) (r : Row) :
    (∀ x : Row, classify_row (classify_row x) = classify_row x) ∧
    classifyPipeline rules (classifyPipeline rules r) = classifyPipeline rules r := by
  refine ⟨classify_row_idem, ?_⟩
  unfold classifyPipeline
  have hy : rename_categories rules (classify_row (rename_categories rules r)) =
      classify_row (rename_categories rules r) := by
    apply rename_noop
    intro ru hru
    rintro ⟨hdate, hcat⟩
    rcases classify_row_cat_cases (rename_categories rules r) with hc | hc | hc
    · apply rename_output_unmatched rules Hb r ru hru
      constructor
      · rw [classify_row_start_dt] at hdate
        exact hdate
      · rw [hc] at hcat
        exact hcat
    · exact (Ha ru hru).1 (hcat.symm.trans hc)
    · exact (Ha ru hru).2 (hcat.symm.trans hc)
  rw [hy, classify_row_idem]

/-- Counterexample to C5 as stated: with the production rename rules, a
pre-cutoff relationship record with a maintenance title is classified to
`"유지 / 정리"` on the first pass, and the second pass's rename stage
then rewrites that classifier-assigned category to `"이동"`. -/
theorem classifyPipeline_not_idempotent :
    (classifyPipeline production_rename_rules rowC5).calendar_name = "유지 / 정리" ∧
    (classifyPipeline production_rename_rules
      (classifyPipeline production_rename_rules rowC5)).calendar_name = "이동" ∧
    classifyPipeline production_rename_rules (classifyPipeline production_rename_rules rowC5) ≠
      classifyPipeline production_rename_rules rowC5 :=
  ⟨rfl, rfl, fun h => absurd (congrArg Row.calendar_name h) (by decide)⟩

/-- Witness for the amended C5 at concrete rules satisfying both side
conditions. -/
theorem classifyPipeline_idem_witness :
    (∀ x : Row, classify_row (classify_row x) = classify_row x) ∧
    classifyPipeline rulesC5w (classifyPipeline rulesC5w rowC5w) =
      classifyPipeline rulesC5w rowC5w :=
  classifyPipeline_idem rulesC5w (by decide) (by decide) rowC5w

/-! ## Relationship reclassification -/

theorem relBranch_cat_eq (x : Row) (h : x.calendar_name = "인간관계") :
    (relBranch x).calendar_name =
      if x.event_name ≠ "" ∧ containsAny (lowerStr x.event_name) RELATIONSHIP_MAINTENANCE_KEYWORDS
      then "유지 / 정리" else "휴식 / 회복" := by
  unfold relBranch
  rw [if_pos h]

theorem relBranch_sub_contains (x : Row) (h : x.calendar_name = "인간관계") :
    strContains (relBranch x).sub_category "#인간관계" = true := by
  unfold relBranch
  rw [if_pos h]
  dsimp only
  split
  · decide
  · rename_i hcond
    push_neg at hcond
    rcases hb : strContains x.sub_category "#인간관계" with _ | _
    · exact absurd hb hcond.2
    · rfl

theorem classify_rel_cat (r : Row) (hcat : r.calendar_name = "인간관계") :
    (classify_row r).calendar_name = (relBranch (initMeta r)).calendar_name := by
  rw [classify_row_cat]
  have h1 : (initMeta r).calendar_name = "인간관계" := hcat
  have hne : (relBranch (initMeta r)).calendar_name ≠ "Daily / Chore" := by
    rcases relBranch_fired_cat (initMeta r) h1 with h | h <;> rw [h] <;> decide
  rw [mealBranch_noop _ hne]

theorem classify_row_sub (x : Row) :
    (classify_row x).sub_category = (relBranch (initMeta x)).sub_category := by
  unfold classify_row
  obtain ⟨tg, hr, he2, hc⟩ :=
    commonTags_shape (category_dispatch (mealBranch (relBranch (initMeta x))))
  obtain ⟨pe, pn, lm, lt, wt, et, rk, hd⟩ :=
    category_dispatch_shape (mealBranch (relBranch (initMeta x)))
  obtain ⟨c2, h2⟩ := mealBranch_shape (relBranch (initMeta x))
  rw [hc, hd, h2]

/-- C6. A record in the `"인간관계"` (relationship) category is
reassigned to `"유지 / 정리"` (maintenance) exactly when its title
matches the brief check-in/contact keyword set, and otherwise — in
particular when the title is missing — to `"휴식 / 회복"` (recovery);
its sub-label is guaranteed to carry the `#인간관계` tag.  The worked
example `{category: 인간관계, title: "coffee with friend"}` ends in
`"휴식 / 회복"` with the `#인간관계` tag extracted and the
relationship flag set. -/
theorem relationship_reclassification (r : Row) (hcat : r.calendar_name = "인간관계") :
    ((classify_row r).calendar_name =
      if r.event_name ≠ "" ∧ containsAny (lowerStr r.event_name) RELATIONSHIP_MAINTENANCE_KEYWORDS
      then "유지 / 정리" else "휴식 / 회복") ∧
    (r.event_name = "" → (classify_row r).calendar_name = "휴식 / 회복") ∧
    strContains (classify_row r).sub_category "#인간관계" = true ∧
    ((classify_row rowC6).calendar_name = "휴식 / 회복" ∧
     (classify_row rowC6).sub_category = "#인간관계" ∧
     "#인간관계" ∈ (classify_row rowC6).extracted_tags ∧
     (classify_row rowC6).has_relationship_tag = true) := by
  have h1 : (initMeta r).calendar_name = "인간관계" := hcat
  have hmain : (classify_row r).calendar_name =
      if r.event_name ≠ "" ∧ containsAny (lowerStr r.event_name) RELATIONSHIP_MAINTENANCE_KEYWORDS
      then "유지 / 정리" else "휴식 / 회복" :=
    (classify_rel_cat r hcat).trans (relBranch_cat_eq (initMeta r) h1)
  refine ⟨hmain, ?_, ?_, ?_⟩
  · intro he
    rw [hmain, if_neg]
    rintro ⟨hne, _⟩
    exact hne he
  · rw [classify_row_sub]
    exact relBranch_sub_contains (initMeta r) h1
  · exact ⟨by decide, by decide, by decide, by decide⟩

/-- Witness for C6 at the spec's worked example record. -/
theorem relationship_reclassification_witness :
    ((classify_row rowC6).calendar_name =
      if rowC6.event_name ≠ "" ∧
         containsAny (lowerStr rowC6.event_name) RELATIONSHIP_MAINTENANCE_KEYWORDS
      then "유지 / 정리" else "휴식 / 회복") ∧
    strContains (classify_row rowC6).sub_category "#인간관계" = true :=
  ⟨(relationship_reclassification rowC6 rfl).1,
   (relationship_reclassification rowC6 rfl).2.2.1⟩

end DailySelfReg
